import Mathlib

/-!
Verification development for the digest2 solver (repository soniakeys/digest2).

The Go sources are shallowly embedded: float64 quantities are modelled as
exact rationals (or reals where square roots and arc cosines occur), Go
slices as Lean lists, Go maps as functions, and the mutable per-tracklet
workspace as explicit state passing.  Each embedded definition mirrors one
function of the source; the theorems at the end of the file settle the
stated properties of those definitions.
-/


/- ## Bin model (package d2bin, file part_005) -/

/-- Axis scan of d2bin.Qei: the Go loop `for v >= Part[x] { x++; if x ==
len(Part) { return } }`.  Returns the first index whose partition edge
exceeds the value, or `none` when the value is at or beyond every edge. -/
def scanAxis : List ℚ → ℚ → Option ℕ
  | [], _ => none
  | p :: rest, v => if v ≥ p then (scanAxis rest v).map (· + 1) else some 0

/-- Function d2bin.Qei: bin indexes for q, e, i.  The Go code scans the q
axis first and returns `inModel = false` as soon as one axis scan runs off
the end of its partition. -/
def Qei (qPart ePart iPart : List ℚ) (q e i : ℚ) : Option (ℕ × ℕ × ℕ) :=
  (scanAxis qPart q).bind fun qx =>
    (scanAxis ePart e).bind fun ex =>
      (scanAxis iPart i).map fun ix => (qx, ex, ix)

/-- Loop of function d2bin.H: `for ; h >= HPart[ih] && ih < LastH; ih++`.
The list argument is the remaining part of HPart from index `ih` on. -/
def scanH : List ℚ → ℕ → ℕ → ℚ → ℕ
  | [], ih, _, _ => ih
  | p :: rest, ih, lastH, h =>
      if h ≥ p ∧ ih < lastH then scanH rest (ih + 1) lastH h else ih

/-- Function d2bin.H: clamped bin index for an H magnitude. -/
def H (hPart : List ℚ) (lastH : ℕ) (h : ℚ) : ℕ := scanH hPart 0 lastH h

/-- Function d2bin.Mx: flat index into the 4-D model,
`((iq*len(EPart)+ie)*len(IPart)+ii)*len(HPart) + ih`. -/
def Mx (ne ni nh : ℕ) (iq ie ii ih : ℕ) : ℕ :=
  ((iq * ne + ie) * ni + ii) * nh + ih

/-- Arithmetic inverse of `Mx`, recovering the 4-tuple from a flat index. -/
def unflatten (ne ni nh : ℕ) (x : ℕ) : ℕ × ℕ × ℕ × ℕ :=
  (x / (ne * ni * nh), x / (ni * nh) % ne, x / nh % ni, x % nh)

/-- Property of being the smallest index k with v < part[k]. -/
def IsLeastEdge (part : List ℚ) (v : ℚ) (k : ℕ) : Prop :=
  ∃ hk : k < part.length,
    v < part.get ⟨k, hk⟩ ∧ ∀ j (hj : j < k), part.get ⟨j, hj.trans hk⟩ ≤ v

/- ## Repeatable random number generator (file mcc.go, digest2 main) -/

/-- Multiplier of the repeatable LCG: the Go init sets
`lcga = lcgRand(math.Pow(13, 13))`, which is exactly 13^13. -/
def lcga : ℕ := 13 ^ 13

/-- State value the solve loop assigns before each tracklet when the
`repeatable` configuration is set: `*rnd.(*lcgRand) = 3`. -/
def lcgSeed : ℕ := 3

/-- Method lcgRand.Float64: the uint64 state is multiplied by `lcga` with
64-bit wraparound, masked with `lcgm = 2^59 - 1`, and the new state is
returned together with the output `float64(*r) * invLcgm` where
`invLcgm = 1 / 2^59`. -/
def lcgFloat64 (r : ℕ) : ℕ × ℚ :=
  let r' := r * lcga % 2 ^ 64 &&& (2 ^ 59 - 1)
  (r', (r' : ℚ) * (1 / 2 ^ 59))

/- ## Observational-error clipper (file part_003, d2solver.clipErr) -/

/-- Method D2Solver.clipErr of the d2solver package: chooses the
observational error from the per-site map, the configured default and the
rms computed from the tracklet, all angles in radians. -/
def clipErr (obsErrMap : String → Option ℚ) (obsErrDefault : ℚ)
    (computedRms : ℚ) (qual : String) : ℚ :=
  let defaultErr := match obsErrMap qual with
    | some e => e
    | none => obsErrDefault
  if defaultErr = 0 then 0
  else if computedRms = 0 then defaultErr
  else if defaultErr > computedRms then defaultErr
  else computedRms

/- ## Offset loop of searchDistance (files solver.go and part_004) -/

/-- Offsets visited by the (ri, di) loops of tracklet.searchDistance, in
execution order: `for ri := -1.; ri <= 1; ri++ { for di := -1.; di <= 1 ...`. -/
def offsets : List (ℚ × ℚ) :=
  [(-1, -1), (-1, 0), (-1, 1), (0, -1), (0, 0), (0, 1), (1, -1), (1, 0), (1, 1)]

/-- Loop body sequencing of tracklet.searchDistance over a workspace state σ:
each iteration runs offsetMotionVector, solveDistanceDependentVectors and
searchAngles (abstracted as `body`, returning the updated workspace and the
searchAngles result), ors the result into newTag, and returns immediately
after the first iteration when `noObsErr` is set. -/
def sdLoop {σ : Type} (noObsErr : Bool) (body : σ → ℚ → ℚ → σ × Bool) :
    List (ℚ × ℚ) → σ → Bool → σ × Bool
  | [], s, newTag => (s, newTag)
  | (ri, di) :: rest, s, newTag =>
      let r := body s ri di
      let newTag' := newTag || r.2
      if noObsErr then (r.1, newTag') else sdLoop noObsErr body rest r.1 newTag'

/-- Loop of tracklet.searchDistance: iterate the body over the nine offsets
starting with newTag = false. -/
def searchDistance {σ : Type} (noObsErr : Bool) (body : σ → ℚ → ℚ → σ × Bool)
    (s : σ) : σ × Bool :=
  sdLoop noObsErr body offsets s false

/-- Instrumented body counting how many times the geometry/angle-search body
is invoked. -/
def countingBody {σ : Type} (body : σ → ℚ → ℚ → σ × Bool) :
    ℕ × σ → ℚ → ℚ → (ℕ × σ) × Bool :=
  fun p ri di => ((p.1 + 1, (body p.2 ri di).1), (body p.2 ri di).2)

/- ## Arc validator (file part_005, d2prog.sendValid) -/

/-- Measured quantities of one observation used by sendValid: time and sky
position. -/
structure ObsMeas where
  MJD : ℚ
  RA : ℚ
  Dec : ℚ
deriving DecidableEq

/-- Time loop of sendValid: `var t0 float64; for _, o := range a.Obs
{ t := o.Meas().MJD; if t <= t0 { return }; t0 = t }` — each time must
strictly exceed the previous one, starting from t0 = 0. -/
def timesValid : ℚ → List ObsMeas → Bool
  | _, [] => true
  | t0, o :: rest => if o.MJD ≤ t0 then false else timesValid o.MJD rest

/-- Last observation of a nonempty list, `a.Obs[len(a.Obs)-1]`, threading the
head as accumulator. -/
def lastObs (o : ObsMeas) : List ObsMeas → ObsMeas
  | [] => o
  | p :: rest => lastObs p rest

/-- Function d2prog.sendValid, reduced to its forwarding decision: an arc is
sent on the channel iff it has at least two observations, its times pass the
positivity/monotonicity loop, and its first and last observations differ in
RA or Dec. -/
def sendValid (obs : List ObsMeas) : Bool :=
  match obs with
  | o0 :: o1 :: rest =>
      if timesValid 0 (o0 :: o1 :: rest) = false then false
      else
        let lst := lastObs o0 (o1 :: rest)
        if o0.RA = lst.RA ∧ o0.Dec = lst.Dec then false
        else true
  | _ => false

/- ## Population model and per-class statistics (files solver.go, part_004) -/

/-- Population model d2bin.Model: total population `SS` and per-class
population `Class`, indexed here by class number and flat bin index. -/
structure Model where
  SS : ℕ → ℚ
  Class : ℕ → ℕ → ℚ

/-- Per-class workspace classStats of the solver: tracklet-scope tag sets,
running population sums, and distance-scope tag sets, as in
`type classStats struct`. -/
structure classStats where
  tagInClass : ℕ → Bool
  tagNonClass : ℕ → Bool
  sumAllInClass : ℚ
  sumAllNonClass : ℚ
  sumUnkInClass : ℚ
  sumUnkNonClass : ℚ
  dInClass : ℕ → Bool
  dNonClass : ℕ → Bool

/-- Fresh classStats allocated by newTracklet: empty maps, zero sums. -/
def initStats : classStats :=
  ⟨fun _ => false, fun _ => false, 0, 0, 0, 0, fun _ => false, fun _ => false⟩

/-- Promotion body of tracklet.searchAngles for one flat bin index i and one
class c: if the bin carries a distance-scope in-class tag and no
tracklet-scope in-class tag yet, promote it and add the bin population to the
in-class sums (all and unk); then the same for the non-class side with
population `SS[i] - Class[c][i]`. -/
def promoteBin (all unk : Model) (c : ℕ) (i : ℕ) (s : classStats) : classStats :=
  let s1 := if s.dInClass i && !(s.tagInClass i) then
      { s with tagInClass := fun j => if j = i then true else s.tagInClass j,
               sumAllInClass := s.sumAllInClass + all.Class c i,
               sumUnkInClass := s.sumUnkInClass + unk.Class c i }
    else s
  if s1.dNonClass i && !(s1.tagNonClass i) then
      { s1 with tagNonClass := fun j => if j = i then true else s1.tagNonClass j,
                sumAllNonClass := s1.sumAllNonClass + (all.SS i - all.Class c i),
                sumUnkNonClass := s1.sumUnkNonClass + (unk.SS i - unk.Class c i) }
  else s1

/-- Operations a solve performs on one class's classStats: tagAngle marks a
bin in a distance-scope set, clearDTags resets the distance-scope sets, and
searchAngles attempts a promotion of a bin. -/
inductive DOp where
  | tagD (bx : ℕ) (inClass : Bool)
  | clearD
  | promoteAt (bx : ℕ)

/-- Effect of one operation on a classStats value. -/
def applyOp (all unk : Model) (c : ℕ) (s : classStats) : DOp → classStats
  | .tagD bx inClass =>
      if inClass then { s with dInClass := fun j => if j = bx then true else s.dInClass j }
      else { s with dNonClass := fun j => if j = bx then true else s.dNonClass j }
  | .clearD => { s with dInClass := fun _ => false, dNonClass := fun _ => false }
  | .promoteAt bx => promoteBin all unk c bx s

/-- Effect of a whole sequence of operations, in order. -/
def applyOps (all unk : Model) (c : ℕ) (s : classStats) : List DOp → classStats
  | [] => s
  | op :: rest => applyOps all unk c (applyOp all unk c s op) rest

/-- Count of operations in a sequence at which an in-class promotion of bin j
actually fires, that is, adds the bin population to the in-class sums. -/
def countInFires (all unk : Model) (c : ℕ) (s : classStats) (j : ℕ) :
    List DOp → ℕ
  | [] => 0
  | op :: rest =>
      (match op with
        | .promoteAt bx =>
            if bx = j ∧ s.dInClass j = true ∧ s.tagInClass j = false then 1 else 0
        | _ => 0) +
      countInFires all unk c (applyOp all unk c s op) j rest

/-- Count of operations at which a non-class promotion of bin j fires.  The
non-class branch of promoteBin tests the tag state after the in-class branch
has run, which never changes the non-class tag, so the test is on s itself. -/
def countNonFires (all unk : Model) (c : ℕ) (s : classStats) (j : ℕ) :
    List DOp → ℕ
  | [] => 0
  | op :: rest =>
      (match op with
        | .promoteAt bx =>
            if bx = j ∧ s.dNonClass j = true ∧ s.tagNonClass j = false then 1 else 0
        | _ => 0) +
      countNonFires all unk c (applyOp all unk c s op) j rest

/- ## Scoring (tail of tracklet.score, files solver.go and part_004) -/

/-- Return type Scores of D2Solver.Solve. -/
structure Scores where
  Raw : ℚ
  NoId : ℚ

/-- Score switch of tracklet.score:
`switch d := inClass + nonClass; { case d > 0: 100 * inClass / d;
case c < 2: 100; default: 0 }`. -/
def scoreVal (c : ℕ) (inClass nonClass : ℚ) : ℚ :=
  let d := inClass + nonClass
  if d > 0 then 100 * inClass / d
  else if c < 2 then 100
  else 0

/-- Final loop of tracklet.score: pair each entry of classCompute with its
classStats, computing Raw from the all sums and NoId from the unk sums. -/
def computeScores (classCompute : List ℕ) (cs : List classStats) : List Scores :=
  List.zipWith
    (fun c s =>
      { Raw := scoreVal c s.sumAllInClass s.sumAllNonClass,
        NoId := scoreVal c s.sumUnkInClass s.sumUnkNonClass })
    classCompute cs

/-- Nonnegativity of the four running sums of a classStats value. -/
def NonnegSums (s : classStats) : Prop :=
  0 ≤ s.sumAllInClass ∧ 0 ≤ s.sumAllNonClass ∧
    0 ≤ s.sumUnkInClass ∧ 0 ≤ s.sumUnkNonClass

/- ## Two-body element extraction (package astro, file part_001) -/

/-- Cartesian vector of the coord package (an external dependency of the
repository). -/
structure Cart where
  x : ℝ
  y : ℝ
  z : ℝ

/-- Modelled from the spec: cross product of two Cartesian vectors, a §4.1
vector primitive whose implementation lives in the external coord package. -/
def cross (a b : Cart) : Cart :=
  ⟨a.y * b.z - a.z * b.y, a.z * b.x - a.x * b.z, a.x * b.y - a.y * b.x⟩

/-- Modelled from the spec: squared magnitude of a Cartesian vector, a §4.1
vector primitive whose implementation lives in the external coord package. -/
def square (a : Cart) : ℝ :=
  a.x * a.x + a.y * a.y + a.z * a.z

/-- Function astro.AeiHv: Keplerian a, e, i and momentum vector from state
vectors, failing (nil momentum) on the stability gates a >= 100 and
e > 0.99.  The Go float64 computation is modelled over the reals. -/
noncomputable def AeiHv (p v : Cart) (d : ℝ) : Option (ℝ × ℝ × ℝ × Cart) :=
  let hv := cross p v
  let hsq := square hv
  let hm := Real.sqrt hsq
  let vsq := square v
  let temp := 2 - d * vsq
  if d > temp * 100 then none
  else
    let a := d / temp
    let inva := temp / d
    let e := Real.sqrt (1 - hsq * inva)
    if e > 0.99 then none
    else
      let i := if hv.z ≥ hm then 0 else Real.arccos (hv.z / hm) * 180 / Real.pi
      some (a, e, i, hv)

theorem scanAxis_eq_none (part : List ℚ) (v : ℚ) :
    scanAxis part v = none ↔ ∀ j (hj : j < part.length), part.get ⟨j, hj⟩ ≤ v := by
  induction part with
  | nil => simp [scanAxis]
  | cons p rest ih =>
    simp only [scanAxis]
    by_cases hv : v ≥ p
    · rw [if_pos hv]
      simp only [Option.map_eq_none', ih]
      constructor
      · intro hall j hj
        match j with
        | 0 => exact hv
        | j + 1 => exact hall j (by simpa using hj)
      · intro hall j hj
        exact hall (j + 1) (by simpa using hj)
    · rw [if_neg hv]
      simp only [Option.some_ne_none, false_iff, not_forall]
      refine ⟨0, by simp, ?_⟩
      simpa using hv

theorem scanAxis_eq_some (part : List ℚ) (v : ℚ) (k : ℕ) :
    scanAxis part v = some k ↔ IsLeastEdge part v k := by
  induction part generalizing k with
  | nil =>
    simp only [scanAxis, IsLeastEdge]
    constructor
    · intro hc; cases hc
    · rintro ⟨hk, -⟩; exact absurd hk (by simp)
  | cons p rest ih =>
    simp only [scanAxis]
    by_cases hv : v ≥ p
    · rw [if_pos hv]
      constructor
      · intro hm
        rcases Option.map_eq_some'.mp hm with ⟨k', hk', rfl⟩
        rcases (ih k').mp hk' with ⟨hlt, hvlt, hle⟩
        refine ⟨by simpa using Nat.succ_lt_succ hlt, by simpa using hvlt, ?_⟩
        intro j hj
        match j with
        | 0 => exact hv
        | j + 1 => exact hle j (by omega)
      · rintro ⟨hk, hvlt, hle⟩
        match k with
        | 0 => exact absurd (by simpa using hvlt) (not_lt.mpr hv)
        | k + 1 =>
          refine Option.map_eq_some'.mpr ⟨k, (ih k).mpr ?_, rfl⟩
          refine ⟨by simpa using hk, by simpa using hvlt, ?_⟩
          intro j hj
          exact hle (j + 1) (by omega)
    · rw [if_neg hv]
      constructor
      · rintro hc
        cases hc
        exact ⟨by simp, by simpa using lt_of_not_ge hv, by omega⟩
      · rintro ⟨hk, hvlt, hle⟩
        match k with
        | 0 => rfl
        | k + 1 => exact absurd (by simpa using hle 0 (by omega)) (by simpa using lt_of_not_ge hv)

theorem scanH_least (part : List ℚ) (lastH : ℕ) (h : ℚ) :
    ∀ ih r (hr : r < part.length), h < part.get ⟨r, hr⟩ → ih + r < lastH →
      (∀ j (hj : j < r), part.get ⟨j, hj.trans hr⟩ ≤ h) →
      scanH part ih lastH h = ih + r := by
  induction part with
  | nil => intro ih r hr; exact absurd hr (by simp)
  | cons p rest ihp =>
    intro ih r hr hlt hbound hle
    match r with
    | 0 =>
      have : ¬ (h ≥ p ∧ ih < lastH) := fun hc => absurd (by simpa using hlt) (not_lt.mpr hc.1)
      simp [scanH, this]
    | r + 1 =>
      have hp : h ≥ p := by simpa using hle 0 (by omega)
      have hih : ih < lastH := by omega
      rw [scanH, if_pos ⟨hp, hih⟩,
        ihp (ih + 1) r (by simpa using hr) (by simpa using hlt) (by omega)
          (fun j hj => by simpa using hle (j + 1) (by omega))]
      omega

theorem scanH_clamp (part : List ℚ) (lastH : ℕ) (h : ℚ) :
    ∀ ih, (∀ j (hj : j < part.length), part.get ⟨j, hj⟩ ≤ h) →
      lastH ≤ ih + part.length → ih ≤ lastH →
      scanH part ih lastH h = lastH := by
  induction part with
  | nil =>
    intro ih _ hub hge
    simp only [List.length_nil, Nat.add_zero] at hub
    simp only [scanH]
    omega
  | cons p rest ihp =>
    intro ih hall hub hge
    rcases Nat.lt_or_ge ih lastH with hlt | hge'
    · rw [scanH, if_pos ⟨by simpa using hall 0 (by simp), hlt⟩]
      exact ihp (ih + 1) (fun j hj => by simpa using hall (j + 1) (by simpa using hj))
        (by simp at hub ⊢; omega) (by omega)
    · have : ih = lastH := le_antisymm hge hge'
      have : ¬ (h ≥ p ∧ ih < lastH) := fun hc => by omega
      simp [scanH, this]
      omega

theorem exists_isLeastEdge (part : List ℚ) (v : ℚ) (j : ℕ) (hj : j < part.length)
    (hv : v < part.get ⟨j, hj⟩) : ∃ k, IsLeastEdge part v k := by
  classical
  have hP : ∃ k, ∃ hk : k < part.length, v < part.get ⟨k, hk⟩ := ⟨j, hj, hv⟩
  obtain ⟨hk, hvk⟩ := Nat.find_spec hP
  refine ⟨Nat.find hP, hk, hvk, ?_⟩
  intro m hm
  have := Nat.find_min hP hm
  push_neg at this
  exact this (hm.trans hk)

theorem scanAxis_none_iff (part : List ℚ) (v : ℚ) :
    scanAxis part v = none ↔ ¬ ∃ k, IsLeastEdge part v k := by
  rw [scanAxis_eq_none]
  constructor
  · rintro hall ⟨k, hk, hvk, -⟩
    exact absurd (hall k hk) (not_le.mpr hvk)
  · intro hno j hj
    by_contra hc
    exact hno (exists_isLeastEdge part v j hj (lt_of_not_ge hc))

/-- Claim C6: on the q, e and i axes the bin index returned by `Qei` is the
smallest k with v < Part[k], and `Qei` reports out-of-model exactly when some
of the three axes has no such k; on the H axis, `H` returns the smallest k
with h < HPart[k] when such a k exists below the last index, and (for a
sorted partition) clamps every h at or above the last partition edge to the
last index rather than reporting out-of-model. -/
theorem qei_and_h_binning
    (qPart ePart iPart hPart : List ℚ) (q e i hmag : ℚ) (lastH : ℕ) :
    (∀ qx ex ix, Qei qPart ePart iPart q e i = some (qx, ex, ix) →
      IsLeastEdge qPart q qx ∧ IsLeastEdge ePart e ex ∧ IsLeastEdge iPart i ix) ∧
    (Qei qPart ePart iPart q e i = none ↔
      (¬ ∃ k, IsLeastEdge qPart q k) ∨ (¬ ∃ k, IsLeastEdge ePart e k) ∨
        (¬ ∃ k, IsLeastEdge iPart i k)) ∧
    (∀ k, IsLeastEdge hPart hmag k → k < lastH → H hPart lastH hmag = k) ∧
    (hPart.Chain' (· ≤ ·) → ∀ hne : hPart ≠ [], lastH < hPart.length →
      hPart.getLast hne ≤ hmag → H hPart lastH hmag = lastH) := by
  refine ⟨?_, ?_, ?_, ?_⟩
  · intro qx ex ix hsome
    simp only [Qei, Option.bind_eq_some, Option.map_eq_some'] at hsome
    obtain ⟨kq, hq, ke, he, ki, hi, heq⟩ := hsome
    obtain ⟨rfl, rfl, rfl⟩ : kq = qx ∧ ke = ex ∧ ki = ix := by
      simpa [Prod.ext_iff] using heq
    exact ⟨(scanAxis_eq_some _ _ _).mp hq, (scanAxis_eq_some _ _ _).mp he,
      (scanAxis_eq_some _ _ _).mp hi⟩
  · rw [← scanAxis_none_iff, ← scanAxis_none_iff, ← scanAxis_none_iff, Qei]
    rcases hq : scanAxis qPart q with _ | kq <;>
      rcases he : scanAxis ePart e with _ | ke <;>
        rcases hi : scanAxis iPart i with _ | ki <;> simp [hq, he, hi]
  · rintro k ⟨hk, hvk, hle⟩ hklast
    have hsc := scanH_least hPart lastH hmag 0 k hk hvk (by omega) hle
    simpa [H] using hsc
  · intro hsort hne hlen hlast
    have hpair := List.chain'_iff_pairwise.mp hsort
    refine scanH_clamp hPart lastH hmag 0 ?_ (by omega) (by omega)
    intro j hj
    rcases Nat.lt_or_ge j (hPart.length - 1) with hj' | hj'
    · refine le_trans ?_ hlast
      rw [List.getLast_eq_get]
      exact List.pairwise_iff_get.mp hpair ⟨j, hj⟩ ⟨hPart.length - 1, by omega⟩ hj'
    · have : j = hPart.length - 1 := by omega
      subst this
      rw [← List.getLast_eq_get]
      exact hlast

/-- Witness for C6: concrete evaluations discharging its hypotheses. -/
theorem qei_and_h_binning_witness :
    Qei [(1 : ℚ)] [1] [1] 0 0 0 = some (0, 0, 0) ∧ H [(1 : ℚ), 2] 1 5 = 1 := by
  have h := qei_and_h_binning [(1 : ℚ)] [1] [1] [(1 : ℚ), 2] 0 0 0 5 1
  refine ⟨by decide,
    h.2.2.2 (by norm_num [List.chain'_cons]) (by simp) (by simp) (by norm_num [List.getLast])⟩

theorem mul_add_lt_mul (a b c d : ℕ) (hab : a < b) (hcd : c < d) :
    a * d + c < b * d := by
  calc a * d + c < a * d + d := by omega
    _ = (a + 1) * d := by ring
    _ ≤ b * d := Nat.mul_le_mul (by omega) le_rfl

theorem pos_factors {a b c d x : ℕ} (hx : x < a * b * c * d) :
    0 < a ∧ 0 < b ∧ 0 < c ∧ 0 < d := by
  have hpos : 0 < a * b * c * d := Nat.lt_of_le_of_lt (Nat.zero_le x) hx
  refine ⟨Nat.pos_of_ne_zero ?_, Nat.pos_of_ne_zero ?_, Nat.pos_of_ne_zero ?_,
    Nat.pos_of_ne_zero ?_⟩ <;> rintro rfl <;> simp at hpos

/-- Claim C7: with axis lengths ne, ni, nh and model size nq*ne*ni*nh, the
flat-index function `Mx` maps in-range tuples into 0..size-1 with `unflatten`
as a two-sided inverse, so it is a bijection between in-range tuples and
0..size-1, and re-flattening any unflattened x in range yields x. -/
theorem mx_bijection (nq ne ni nh iq ie ii ih x : ℕ) :
    (iq < nq → ie < ne → ii < ni → ih < nh →
      Mx ne ni nh iq ie ii ih < nq * ne * ni * nh ∧
      unflatten ne ni nh (Mx ne ni nh iq ie ii ih) = (iq, ie, ii, ih)) ∧
    (x < nq * ne * ni * nh →
      Mx ne ni nh (unflatten ne ni nh x).1 (unflatten ne ni nh x).2.1
          (unflatten ne ni nh x).2.2.1 (unflatten ne ni nh x).2.2.2 = x ∧
        (unflatten ne ni nh x).1 < nq ∧ (unflatten ne ni nh x).2.1 < ne ∧
        (unflatten ne ni nh x).2.2.1 < ni ∧ (unflatten ne ni nh x).2.2.2 < nh) := by
  constructor
  · intro hiq hie hii hih
    have hnh : 0 < nh := by omega
    have hni : 0 < ni := by omega
    have hne : 0 < ne := by omega
    have c4 : Mx ne ni nh iq ie ii ih % nh = ih := by
      rw [Mx, Nat.mul_comm _ nh, Nat.mul_add_mod, Nat.mod_eq_of_lt hih]
    have c3' : Mx ne ni nh iq ie ii ih / nh = (iq * ne + ie) * ni + ii := by
      rw [Mx, Nat.mul_comm _ nh, Nat.mul_add_div hnh, Nat.div_eq_of_lt hih, Nat.add_zero]
    have c3 : Mx ne ni nh iq ie ii ih / nh % ni = ii := by
      rw [c3', Nat.mul_comm _ ni, Nat.mul_add_mod, Nat.mod_eq_of_lt hii]
    have c2' : Mx ne ni nh iq ie ii ih / nh / ni = iq * ne + ie := by
      rw [c3', Nat.mul_comm _ ni, Nat.mul_add_div hni, Nat.div_eq_of_lt hii, Nat.add_zero]
    have c2 : Mx ne ni nh iq ie ii ih / (ni * nh) % ne = ie := by
      rw [show ni * nh = nh * ni from Nat.mul_comm _ _, ← Nat.div_div_eq_div_mul, c2',
        Nat.mul_comm iq ne, Nat.mul_add_mod, Nat.mod_eq_of_lt hie]
    have c1 : Mx ne ni nh iq ie ii ih / (ne * ni * nh) = iq := by
      rw [show ne * ni * nh = nh * ni * ne by ring, ← Nat.div_div_eq_div_mul,
        ← Nat.div_div_eq_div_mul, c2', Nat.mul_comm _ ne, Nat.mul_add_div hne,
        Nat.div_eq_of_lt hie, Nat.add_zero]
    refine ⟨?_, ?_⟩
    · calc Mx ne ni nh iq ie ii ih
          < ((nq * ne) * ni) * nh :=
            mul_add_lt_mul _ _ _ _ (mul_add_lt_mul _ _ _ _ (mul_add_lt_mul _ _ _ _ hiq hie) hii) hih
        _ = nq * ne * ni * nh := by ring
    · rw [unflatten, c1, c2, c3, c4]
  · intro hx
    obtain ⟨hnq, hne, hni, hnh⟩ := pos_factors hx
    have e1 : x / (ni * nh) = x / nh / ni := by
      rw [Nat.div_div_eq_div_mul, Nat.mul_comm]
    have e2 : x / (ne * ni * nh) = x / nh / ni / ne := by
      rw [Nat.div_div_eq_div_mul, Nat.div_div_eq_div_mul]
      congr 1
      ring
    refine ⟨?_, ?_, ?_, ?_, ?_⟩
    · rw [Mx, unflatten, e1, e2, Nat.div_add_mod', Nat.div_add_mod', Nat.div_add_mod']
    · rw [unflatten]
      have hd : 0 < ne * ni * nh := by positivity
      rw [Nat.div_lt_iff_lt_mul hd]
      calc x < nq * ne * ni * nh := hx
        _ = nq * (ne * ni * nh) := by ring
    · exact Nat.mod_lt _ hne
    · exact Nat.mod_lt _ hni
    · exact Nat.mod_lt _ hnh

/-- Witness for C7: concrete evaluations discharging its hypotheses. -/
theorem mx_bijection_witness :
    Mx 2 2 2 1 1 1 1 = 15 ∧ unflatten 2 2 2 15 = (1, 1, 1, 1) ∧
      Mx 2 2 2 (unflatten 2 2 2 15).1 (unflatten 2 2 2 15).2.1
        (unflatten 2 2 2 15).2.2.1 (unflatten 2 2 2 15).2.2.2 = 15 := by
  have h := mx_bijection 2 2 2 2 1 1 1 1 15
  exact ⟨by decide, by decide, (h.2 (by decide)).1⟩

/-- Claim C8: the repeatable RNG realises the LCG x <- x*a mod m with
a = 302875106592253 = 13^13 and m = 2^59 (the 64-bit wrapping multiply
followed by masking with 2^59 - 1 is exactly multiplication mod 2^59), it is
seeded to 3 before each tracklet, and each Float64 call first advances the
state and then returns state/m, a value in [0, 1). -/
theorem lcg_float64_spec (r : ℕ) :
    (lcgFloat64 r).1 = r * 302875106592253 % 2 ^ 59 ∧
    lcga = 302875106592253 ∧
    lcgSeed = 3 ∧
    (lcgFloat64 r).2 = ((lcgFloat64 r).1 : ℚ) / 2 ^ 59 ∧
    0 ≤ (lcgFloat64 r).2 ∧ (lcgFloat64 r).2 < 1 := by
  have ha : lcga = 302875106592253 := by norm_num [lcga]
  have hstate : (lcgFloat64 r).1 = r * 302875106592253 % 2 ^ 59 := by
    show r * lcga % 2 ^ 64 &&& (2 ^ 59 - 1) = _
    rw [Nat.and_pow_two_sub_one_eq_mod, Nat.mod_mod_of_dvd _ (by norm_num), ha]
  refine ⟨hstate, ha, rfl, ?_, ?_, ?_⟩
  · show ((lcgFloat64 r).1 : ℚ) * (1 / 2 ^ 59) = _
    ring
  · show (0 : ℚ) ≤ ((lcgFloat64 r).1 : ℚ) * (1 / 2 ^ 59)
    positivity
  · show ((lcgFloat64 r).1 : ℚ) * (1 / 2 ^ 59) < 1
    have hlt : (lcgFloat64 r).1 < 2 ^ 59 := by
      rw [hstate]
      exact Nat.mod_lt _ (by norm_num)
    rw [mul_one_div, div_lt_one (by norm_num)]
    exact_mod_cast hlt

/-- Claim C3: clipErr uses obsErrMap[qualTag] as the default when present and
obsErrDefault otherwise; a zero default forces a zero result regardless of
the measured rms; a zero measured rms yields the default; otherwise the
result is max(default, measured rms). -/
theorem clipErr_precedence (obsErrMap : String → Option ℚ) (obsErrDefault : ℚ)
    (computedRms : ℚ) (qual : String) :
    clipErr obsErrMap obsErrDefault computedRms qual =
      if (obsErrMap qual).getD obsErrDefault = 0 then 0
      else if computedRms = 0 then (obsErrMap qual).getD obsErrDefault
      else max ((obsErrMap qual).getD obsErrDefault) computedRms := by
  rw [clipErr]
  rcases hm : obsErrMap qual with _ | e <;>
    simp only [hm, Option.getD_some, Option.getD_none] <;>
    rcases eq_or_ne computedRms 0 with h0 | h0 <;>
    split_ifs with h1 h2 h3 <;>
    first
      | rfl
      | (rw [max_eq_left (le_of_lt (by assumption))])
      | (rw [max_eq_right (le_of_not_lt (by assumption))])
      | (exact absurd h0 (by assumption))
      | (exact absurd (by assumption) h0)

/-- Claim C4: when noObsErr holds, searchDistance evaluates its body exactly
once — the offset loop returns after its first iteration, at offset
(-1, -1) — so searchAngles is invoked a single time per searched distance. -/
theorem searchDistance_noObsErr_once {σ : Type} (body : σ → ℚ → ℚ → σ × Bool)
    (s : σ) :
    searchDistance true body s = ((body s (-1) (-1)).1, (body s (-1) (-1)).2) ∧
    (searchDistance true (countingBody body) (0, s)).1.1 = 1 := by
  constructor
  · show sdLoop true body offsets s false = _
    rw [offsets, sdLoop]
    simp
  · show (sdLoop true (countingBody body) offsets (0, s) false).1.1 = 1
    rw [offsets, sdLoop]
    simp [countingBody]

theorem timesValid_iff (t0 : ℚ) (l : List ObsMeas) :
    timesValid t0 l = true ↔ (t0 :: l.map ObsMeas.MJD).Chain' (· < ·) := by
  induction l generalizing t0 with
  | nil => simp [timesValid]
  | cons o rest ih =>
    rw [timesValid]
    by_cases h : o.MJD ≤ t0
    · simp only [if_pos h, List.map_cons, List.chain'_cons]
      constructor
      · intro hc; cases hc
      · rintro ⟨hlt, -⟩; exact absurd hlt (not_lt.mpr h)
    · simp only [if_neg h, List.map_cons, List.chain'_cons, ih]
      constructor
      · intro hc; exact ⟨lt_of_not_ge fun hle => h hle, hc⟩
      · rintro ⟨-, hc⟩; exact hc

/-- Claim C10: sendValid forwards an arc iff it has at least two
observations, strictly positive and strictly increasing observation times,
and endpoints differing in RA or Dec; in particular the motion guard looks
only at the first and the last observation, so an arc whose endpoints
coincide is dropped even when an intermediate observation shows motion. -/
theorem sendValid_spec (obs : List ObsMeas) :
    (sendValid obs = true ↔
      2 ≤ obs.length ∧ ((0 : ℚ) :: obs.map ObsMeas.MJD).Chain' (· < ·) ∧
        ∀ o0 rest, obs = o0 :: rest →
          (o0.RA ≠ (lastObs o0 rest).RA ∨ o0.Dec ≠ (lastObs o0 rest).Dec)) ∧
    sendValid [⟨1, 0, 0⟩, ⟨2, 1, 1⟩, ⟨3, 0, 0⟩] = false := by
  constructor
  · match obs with
    | [] => simp [sendValid]
    | [o] => simp [sendValid]
    | o0 :: o1 :: rest =>
      rw [sendValid]
      by_cases ht : timesValid 0 (o0 :: o1 :: rest) = false
      · rw [if_pos ht]
        constructor
        · intro hc; exact absurd hc (by decide)
        · rintro ⟨-, hchain, -⟩
          rw [← timesValid_iff] at hchain
          rw [ht] at hchain
          exact absurd hchain (by decide)
      · rw [if_neg ht]
        have htv : timesValid 0 (o0 :: o1 :: rest) = true := by
          revert ht; cases timesValid 0 (o0 :: o1 :: rest) <;> simp
        by_cases hm : o0.RA = (lastObs o0 (o1 :: rest)).RA ∧
            o0.Dec = (lastObs o0 (o1 :: rest)).Dec
        · rw [if_pos hm]
          constructor
          · intro hc; exact absurd hc (by decide)
          · rintro ⟨-, -, hall⟩
            rcases hall o0 (o1 :: rest) rfl with h | h
            · exact absurd hm.1 h
            · exact absurd hm.2 h
        · rw [if_neg hm]
          simp only [true_iff]
          refine ⟨by simp, (timesValid_iff 0 _).mp htv, ?_⟩
          rintro p prest ⟨rfl, rfl⟩
          rcases not_and_or.mp hm with h | h
          · exact Or.inl h
          · exact Or.inr h
  · rfl


theorem applyOp_tagInClass_mono (all unk : Model) (c : ℕ) (s : classStats)
    (op : DOp) (j : ℕ) (hs : s.tagInClass j = true) :
    (applyOp all unk c s op).tagInClass j = true := by
  cases op with
  | tagD bx inClass =>
    rw [applyOp]
    split_ifs <;> exact hs
  | clearD => exact hs
  | promoteAt bx =>
    show (promoteBin all unk c bx s).tagInClass j = true
    simp only [promoteBin]
    split_ifs <;> simp [hs]

theorem applyOp_tagNonClass_mono (all unk : Model) (c : ℕ) (s : classStats)
    (op : DOp) (j : ℕ) (hs : s.tagNonClass j = true) :
    (applyOp all unk c s op).tagNonClass j = true := by
  cases op with
  | tagD bx inClass =>
    rw [applyOp]
    split_ifs <;> exact hs
  | clearD => exact hs
  | promoteAt bx =>
    show (promoteBin all unk c bx s).tagNonClass j = true
    simp only [promoteBin]
    split_ifs <;> simp [hs]

theorem countInFires_of_tagged (all unk : Model) (c : ℕ) (j : ℕ)
    (ops : List DOp) :
    ∀ s : classStats, s.tagInClass j = true →
      countInFires all unk c s j ops = 0 := by
  induction ops with
  | nil => intro s _; rfl
  | cons op rest ih =>
    intro s hs
    have htail := ih (applyOp all unk c s op) (applyOp_tagInClass_mono all unk c s op j hs)
    cases op with
    | tagD bx inClass => simpa [countInFires] using htail
    | clearD => simpa [countInFires] using htail
    | promoteAt bx =>
      simp only [countInFires]
      rw [if_neg, Nat.zero_add]
      · exact htail
      · rintro ⟨-, -, hf⟩
        rw [hs] at hf
        exact absurd hf (by decide)

theorem countNonFires_of_tagged (all unk : Model) (c : ℕ) (j : ℕ)
    (ops : List DOp) :
    ∀ s : classStats, s.tagNonClass j = true →
      countNonFires all unk c s j ops = 0 := by
  induction ops with
  | nil => intro s _; rfl
  | cons op rest ih =>
    intro s hs
    have htail := ih (applyOp all unk c s op) (applyOp_tagNonClass_mono all unk c s op j hs)
    cases op with
    | tagD bx inClass => simpa [countNonFires] using htail
    | clearD => simpa [countNonFires] using htail
    | promoteAt bx =>
      simp only [countNonFires]
      rw [if_neg, Nat.zero_add]
      · exact htail
      · rintro ⟨-, -, hf⟩
        rw [hs] at hf
        exact absurd hf (by decide)

theorem promoteBin_tagInClass_self (all unk : Model) (c : ℕ) (j : ℕ)
    (s : classStats) (hd : s.dInClass j = true) (ht : s.tagInClass j = false) :
    (promoteBin all unk c j s).tagInClass j = true := by
  simp only [promoteBin]
  split_ifs with h1 h2 h3 <;> simp_all

theorem promoteBin_tagNonClass_self (all unk : Model) (c : ℕ) (j : ℕ)
    (s : classStats) (hd : s.dNonClass j = true) (ht : s.tagNonClass j = false) :
    (promoteBin all unk c j s).tagNonClass j = true := by
  simp only [promoteBin]
  split_ifs with h1 h2 h3 <;> simp_all

theorem countInFires_le_one (all unk : Model) (c : ℕ) (j : ℕ) (ops : List DOp) :
    ∀ s : classStats, countInFires all unk c s j ops ≤ 1 := by
  induction ops with
  | nil => intro s; exact Nat.zero_le 1
  | cons op rest ih =>
    intro s
    cases op with
    | tagD bx inClass => simpa [countInFires] using ih _
    | clearD => simpa [countInFires] using ih _
    | promoteAt bx =>
      simp only [countInFires]
      by_cases hc : bx = j ∧ s.dInClass j = true ∧ s.tagInClass j = false
      · rw [if_pos hc]
        obtain ⟨rfl, hd, ht⟩ := hc
        have : countInFires all unk c (applyOp all unk c s (.promoteAt bx)) bx rest = 0 :=
          countInFires_of_tagged all unk c bx rest _
            (promoteBin_tagInClass_self all unk c bx s hd ht)
        omega
      · rw [if_neg hc, Nat.zero_add]
        exact ih _

theorem countNonFires_le_one (all unk : Model) (c : ℕ) (j : ℕ) (ops : List DOp) :
    ∀ s : classStats, countNonFires all unk c s j ops ≤ 1 := by
  induction ops with
  | nil => intro s; exact Nat.zero_le 1
  | cons op rest ih =>
    intro s
    cases op with
    | tagD bx inClass => simpa [countNonFires] using ih _
    | clearD => simpa [countNonFires] using ih _
    | promoteAt bx =>
      simp only [countNonFires]
      by_cases hc : bx = j ∧ s.dNonClass j = true ∧ s.tagNonClass j = false
      · rw [if_pos hc]
        obtain ⟨rfl, hd, ht⟩ := hc
        have : countNonFires all unk c (applyOp all unk c s (.promoteAt bx)) bx rest = 0 :=
          countNonFires_of_tagged all unk c bx rest _
            (promoteBin_tagNonClass_self all unk c bx s hd ht)
        omega
      · rw [if_neg hc, Nat.zero_add]
        exact ih _

/-- Claim C9: during a single solve, for every class and flat bin index, the
promotion of a distance-scope tag into the tracklet-scope tag set — with its
one-time addition of the bin population to the running sums — fires at most
once per (class, bx) pair on the in-class side and at most once on the
non-class side, no matter how many distances and angle searches re-tag the
bin. -/
theorem promotion_at_most_once (all unk : Model) (c : ℕ) (j : ℕ)
    (ops : List DOp) (s : classStats) :
    countInFires all unk c s j ops ≤ 1 ∧ countNonFires all unk c s j ops ≤ 1 :=
  ⟨countInFires_le_one all unk c j ops s, countNonFires_le_one all unk c j ops s⟩

/-- Claim C1: for every configured class index k with underlying class
c = classCompute[k], letting D be the accumulated sumAllInClass +
sumAllNonClass, the raw score is 100*sumAllInClass/D when D > 0, and
otherwise 100 if c < 2 (Int or NEO) and 0 for every other class; the noId
score obeys the same rule computed from the unk sums. -/
theorem score_formula (classCompute : List ℕ) (cs : List classStats) (k : ℕ)
    (hk : k < (computeScores classCompute cs).length)
    (hk1 : k < classCompute.length) (hk2 : k < cs.length) :
    ((computeScores classCompute cs).get ⟨k, hk⟩).Raw =
      (if (cs.get ⟨k, hk2⟩).sumAllInClass + (cs.get ⟨k, hk2⟩).sumAllNonClass > 0 then
        100 * (cs.get ⟨k, hk2⟩).sumAllInClass /
          ((cs.get ⟨k, hk2⟩).sumAllInClass + (cs.get ⟨k, hk2⟩).sumAllNonClass)
      else if classCompute.get ⟨k, hk1⟩ < 2 then 100 else 0) ∧
    ((computeScores classCompute cs).get ⟨k, hk⟩).NoId =
      (if (cs.get ⟨k, hk2⟩).sumUnkInClass + (cs.get ⟨k, hk2⟩).sumUnkNonClass > 0 then
        100 * (cs.get ⟨k, hk2⟩).sumUnkInClass /
          ((cs.get ⟨k, hk2⟩).sumUnkInClass + (cs.get ⟨k, hk2⟩).sumUnkNonClass)
      else if classCompute.get ⟨k, hk1⟩ < 2 then 100 else 0) := by
  have hz : ((computeScores classCompute cs).get ⟨k, hk⟩) =
      { Raw := scoreVal (classCompute.get ⟨k, hk1⟩) (cs.get ⟨k, hk2⟩).sumAllInClass
          (cs.get ⟨k, hk2⟩).sumAllNonClass,
        NoId := scoreVal (classCompute.get ⟨k, hk1⟩) (cs.get ⟨k, hk2⟩).sumUnkInClass
          (cs.get ⟨k, hk2⟩).sumUnkNonClass } := by
    simp [computeScores, List.get_zipWith]
  rw [hz]
  exact ⟨rfl, rfl⟩

/-- Witness for C1: a concrete configured class list and accumulated sums. -/
theorem score_formula_witness :
    ((computeScores [0, 5]
        [⟨fun _ => false, fun _ => false, 3, 1, 0, 0, fun _ => false, fun _ => false⟩,
         ⟨fun _ => false, fun _ => false, 0, 0, 2, 2, fun _ => false, fun _ => false⟩]).get
      ⟨0, by simp [computeScores]⟩).Raw = 75 ∧
    ((computeScores [0, 5]
        [⟨fun _ => false, fun _ => false, 3, 1, 0, 0, fun _ => false, fun _ => false⟩,
         ⟨fun _ => false, fun _ => false, 0, 0, 2, 2, fun _ => false, fun _ => false⟩]).get
      ⟨0, by simp [computeScores]⟩).NoId = 100 := by
  have h := score_formula [0, 5]
    [⟨fun _ => false, fun _ => false, 3, 1, 0, 0, fun _ => false, fun _ => false⟩,
     ⟨fun _ => false, fun _ => false, 0, 0, 2, 2, fun _ => false, fun _ => false⟩]
    0 (by simp [computeScores]) (by simp) (by simp)
  rw [h.1, h.2]
  norm_num

theorem promoteBin_nonneg (all unk : Model) (c : ℕ) (i : ℕ) (s : classStats)
    (hAll : ∀ x, 0 ≤ all.Class c x ∧ all.Class c x ≤ all.SS x)
    (hUnk : ∀ x, 0 ≤ unk.Class c x ∧ unk.Class c x ≤ unk.SS x)
    (hs : NonnegSums s) : NonnegSums (promoteBin all unk c i s) := by
  obtain ⟨h1, h2, h3, h4⟩ := hs
  have ha := hAll i
  have hu := hUnk i
  simp only [promoteBin, NonnegSums]
  split_ifs <;>
    refine ⟨?_, ?_, ?_, ?_⟩ <;>
    dsimp only <;>
    first
      | assumption
      | linarith [ha.1, ha.2, hu.1, hu.2]

theorem applyOps_nonneg (all unk : Model) (c : ℕ) (ops : List DOp)
    (hAll : ∀ x, 0 ≤ all.Class c x ∧ all.Class c x ≤ all.SS x)
    (hUnk : ∀ x, 0 ≤ unk.Class c x ∧ unk.Class c x ≤ unk.SS x) :
    ∀ s : classStats, NonnegSums s → NonnegSums (applyOps all unk c s ops) := by
  induction ops with
  | nil => intro s hs; exact hs
  | cons op rest ih =>
    intro s hs
    refine ih _ ?_
    cases op with
    | tagD bx inClass =>
      rw [applyOp]
      split_ifs <;> exact hs
    | clearD => exact hs
    | promoteAt bx => exact promoteBin_nonneg all unk c bx s hAll hUnk hs

theorem scoreVal_bounds (c : ℕ) (a b : ℚ) (ha : 0 ≤ a) (hb : 0 ≤ b) :
    0 ≤ scoreVal c a b ∧ scoreVal c a b ≤ 100 := by
  simp only [scoreVal]
  split_ifs with h1 h2
  · constructor
    · positivity
    · rw [div_le_iff h1]
      nlinarith
  · norm_num
  · norm_num

/-- Claim C2: under the histogram invariant 0 <= Class[c][x] <= SS[x] (for
both the all and the unk model), the raw and noId scores computed from the
sums accumulated by any sequence of solve operations lie in [0, 100]: the
accumulated in-class and non-class sums are non-negative, so each quotient
lies in [0, 1], and the empty-sum fallbacks are 0 or 100. -/
theorem scores_in_range (all unk : Model) (c : ℕ) (ops : List DOp)
    (hAll : ∀ x, 0 ≤ all.Class c x ∧ all.Class c x ≤ all.SS x)
    (hUnk : ∀ x, 0 ≤ unk.Class c x ∧ unk.Class c x ≤ unk.SS x) :
    0 ≤ scoreVal c (applyOps all unk c initStats ops).sumAllInClass
        (applyOps all unk c initStats ops).sumAllNonClass ∧
    scoreVal c (applyOps all unk c initStats ops).sumAllInClass
        (applyOps all unk c initStats ops).sumAllNonClass ≤ 100 ∧
    0 ≤ scoreVal c (applyOps all unk c initStats ops).sumUnkInClass
        (applyOps all unk c initStats ops).sumUnkNonClass ∧
    scoreVal c (applyOps all unk c initStats ops).sumUnkInClass
        (applyOps all unk c initStats ops).sumUnkNonClass ≤ 100 := by
  have hinit : NonnegSums initStats := by
    refine ⟨le_refl 0, le_refl 0, le_refl 0, le_refl 0⟩
  obtain ⟨h1, h2, h3, h4⟩ := applyOps_nonneg all unk c ops hAll hUnk initStats hinit
  obtain ⟨ra, rb⟩ := scoreVal_bounds c _ _ h1 h2
  obtain ⟨na, nb⟩ := scoreVal_bounds c _ _ h3 h4
  exact ⟨ra, rb, na, nb⟩

/-- Witness for C2: a concrete two-bin model satisfying the invariant and a
concrete operation sequence tagging and promoting bin 0. -/
theorem scores_in_range_witness :
    0 ≤ scoreVal 0
        (applyOps ⟨fun _ => 2, fun _ _ => 1⟩ ⟨fun _ => 2, fun _ _ => 1⟩ 0 initStats
          [DOp.tagD 0 true, DOp.promoteAt 0]).sumAllInClass
        (applyOps ⟨fun _ => 2, fun _ _ => 1⟩ ⟨fun _ => 2, fun _ _ => 1⟩ 0 initStats
          [DOp.tagD 0 true, DOp.promoteAt 0]).sumAllNonClass ∧
    scoreVal 0
        (applyOps ⟨fun _ => 2, fun _ _ => 1⟩ ⟨fun _ => 2, fun _ _ => 1⟩ 0 initStats
          [DOp.tagD 0 true, DOp.promoteAt 0]).sumAllInClass
        (applyOps ⟨fun _ => 2, fun _ _ => 1⟩ ⟨fun _ => 2, fun _ _ => 1⟩ 0 initStats
          [DOp.tagD 0 true, DOp.promoteAt 0]).sumAllNonClass ≤ 100 := by
  have h := scores_in_range ⟨fun _ => 2, fun _ _ => 1⟩ ⟨fun _ => 2, fun _ _ => 1⟩ 0
    [DOp.tagD 0 true, DOp.promoteAt 0]
    (fun x => by norm_num) (fun x => by norm_num)
  exact ⟨h.1, h.2.1⟩

/-- Claim C5: AeiHv fails exactly when d > 100*(2 - d*|v|^2) (rejecting
a >= 100 AU, including unbound orbits) or when the eccentricity
e = sqrt(1 - h^2/a) exceeds 0.99; on success, if the momentum z-component is
at least |h| the inclination is 0, and otherwise it is arccos(h_z/|h|)
converted to degrees. -/
theorem aeihv_gates (p v : Cart) (d : ℝ) :
    (AeiHv p v d = none ↔
      d > 100 * (2 - d * square v) ∨
        Real.sqrt (1 - square (cross p v) * ((2 - d * square v) / d)) > 0.99) ∧
    (∀ a e i hv, AeiHv p v d = some (a, e, i, hv) →
      (Real.sqrt (square hv) ≤ hv.z → i = 0) ∧
      (hv.z < Real.sqrt (square hv) →
        i = Real.arccos (hv.z / Real.sqrt (square hv)) * 180 / Real.pi)) := by
  constructor
  · simp only [AeiHv]
    split_ifs with h1 h2
    · exact iff_of_true rfl (Or.inl (by linarith [mul_comm (2 - d * square v) 100]))
    · exact iff_of_true rfl (Or.inr h2)
    · refine iff_of_false (by simp) ?_
      rintro (hc | hc)
      · exact h1 (by linarith [mul_comm (2 - d * square v) 100])
      · exact h2 hc
  · intro a e i hv hsome
    simp only [AeiHv] at hsome
    split_ifs at hsome with h1 h2 h3
    · rw [Option.some_inj, Prod.mk.injEq, Prod.mk.injEq, Prod.mk.injEq] at hsome
      obtain ⟨-, -, hi, hhv⟩ := hsome
      subst hhv
      subst hi
      exact ⟨fun _ => rfl, fun hz => absurd h3 (not_le.mpr hz)⟩
    · rw [Option.some_inj, Prod.mk.injEq, Prod.mk.injEq, Prod.mk.injEq] at hsome
      obtain ⟨-, -, hi, hhv⟩ := hsome
      subst hhv
      subst hi
      exact ⟨fun hz => absurd hz h3, fun _ => rfl⟩

theorem aeihv_eval :
    AeiHv ⟨1, 0, 0⟩ ⟨0, 1, 0⟩ 1 = some (1, 0, 0, ⟨0, 0, 1⟩) := by
  simp only [AeiHv, cross, square]
  norm_num [Real.sqrt_one]

/-- Witness for C5: a circular unit orbit, evaluated concretely, with the
zero-inclination clause of the theorem applied to it. -/
theorem aeihv_gates_witness :
    AeiHv ⟨1, 0, 0⟩ ⟨0, 1, 0⟩ 1 = some (1, 0, 0, ⟨0, 0, 1⟩) ∧ (0 : ℝ) = 0 :=
  ⟨aeihv_eval,
    ((aeihv_gates ⟨1, 0, 0⟩ ⟨0, 1, 0⟩ 1).2 1 0 0 ⟨0, 0, 1⟩ aeihv_eval).1
      (by norm_num [square, Real.sqrt_one])⟩

